import Mathlib

/-!
Verification development for the PDF-chatbot ingestion/retrieval pipeline
(`src/app.py`).  Text is modelled as `List Char`; Python string operations
(`strip`, `lower`, `capitalize`, `in`, `str.format`, `' '.join`) are embedded
as executable functions on character lists.  External collaborators (the
spaCy analyzer, the embedding model, the vector index, the LLM) are treated
as parameters; pieces of behaviour that live outside `src/` (the langchain
recursive splitter, the spaCy pipeline) are modelled from the specification,
as noted on the individual definitions.
-/

/-- Character-list representation of a Python string. -/
abbrev Text := List Char

/-- Models the langchain `Document`: raw text plus source metadata.  The
metadata is kept as an opaque rendered blob since no claim inspects its
structure. -/
structure Document where
  page_content : Text
  metadata : Text
deriving DecidableEq

/-- Models Python `str.lower()` (ASCII case folding, as used by the code on
ASCII keyword/question material). -/
def pyLower (l : Text) : Text := l.map Char.toLower

/-- Models Python `str.strip()`: drop leading and trailing whitespace. -/
def pyStrip (l : Text) : Text :=
  ((l.dropWhile Char.isWhitespace).reverse.dropWhile Char.isWhitespace).reverse

/-- Models Python `str.capitalize()`: first character upper-cased, the rest
lower-cased. -/
def pyCapitalize : Text → Text
  | [] => []
  | c :: cs => Char.toUpper c :: pyLower cs

/-- Models Python `' '.join(tokens)`: the words separated by single
spaces. -/
def joinSpaces : List Text → Text
  | [] => []
  | [w] => w
  | w :: rest => w ++ ' ' :: joinSpaces rest

/-- Models the Python substring test `pat in s`. -/
def pyIn (pat : Text) : Text → Bool
  | [] => pat.isEmpty
  | c :: cs => List.isPrefixOf pat (c :: cs) || pyIn pat cs

/-- Occurrence of `pat` as a contiguous substring of `l` (the property the
spec's wording describes; related to `pyIn` below). -/
def OccursIn (pat l : Text) : Prop := ∃ u v, l = u ++ pat ++ v

/- ## Chunker (claim C1)

`split_document` (src/app.py lines 63-77) delegates the split to langchain's
`RecursiveCharacterTextSplitter` with separators `["\n\n", "\n", " "]`; that
library code is not part of this repository, so the splitting algorithm is
modelled from the specification (section 4.2): try the coarsest separator,
recursively split still-oversized pieces with the next separator, and split a
piece that is below separator granularity at the raw character boundary,
with adjacent raw-boundary chunks overlapping by `chunk_overlap` characters. -/

/-- Helper for `splitOnSeq`: walk the text, cutting at each occurrence of the
(non-empty) separator `s0 :: srest`; `acc` holds the current piece reversed. -/
def splitOnSeqGo (s0 : Char) (srest : Text) (acc : Text) : Text → List Text
  | [] => [acc.reverse]
  | c :: cs =>
    if List.isPrefixOf (s0 :: srest) (c :: cs) then
      acc.reverse :: splitOnSeqGo s0 srest [] (cs.drop srest.length)
    else
      splitOnSeqGo s0 srest (c :: acc) cs
termination_by l => l.length
decreasing_by
  · simp only [List.length_drop, List.length_cons]; omega
  · simp only [List.length_cons]; omega

/-- Splits a text at every occurrence of a separator sequence (the splitting
primitive of the modelled recursive splitter). -/
def splitOnSeq (sep : Text) (l : Text) : List Text :=
  match sep with
  | [] => [l]
  | s0 :: srest => splitOnSeqGo s0 srest [] l

/-- Modelled from the spec: raw-character-boundary splitting with overlap,
used when a piece is below separator granularity and still oversized.
Successive windows of at most `chunk_size` characters advance by
`chunk_size - chunk_overlap`, so adjacent windows share `chunk_overlap`
characters (the stride is clamped to at least 1 so the function is total
even for degenerate configurations). -/
def charWindows (chunk_size chunk_overlap : Nat) (l : Text) : List Text :=
  if _h : l.length ≤ chunk_size then [l]
  else
    l.take chunk_size ::
      charWindows chunk_size chunk_overlap (l.drop (max 1 (chunk_size - chunk_overlap)))
termination_by l.length
decreasing_by
  simp only [List.length_drop]
  omega

/-- Modelled from the spec: the recursive splitting algorithm of section 4.2.
A piece that already fits is emitted as is; otherwise it is split on the
current separator and every still-oversized sub-piece is recursively split
with the remaining separators; once no separator is left the raw character
boundary is used. -/
def splitRec (chunk_size chunk_overlap : Nat) : List Text → Text → List Text
  | [], text =>
    if text.length ≤ chunk_size then [text]
    else charWindows chunk_size chunk_overlap text
  | sep :: rest, text =>
    if text.length ≤ chunk_size then [text]
    else (splitOnSeq sep text).flatMap (splitRec chunk_size chunk_overlap rest)

/-- The separator preference order configured at src/app.py line 75:
paragraph boundary, then newline, then space. -/
def separators : List Text := ["\n\n".data, "\n".data, " ".data]

/-- Models `split_document` (src/app.py lines 63-77): split every document's
text with the configured recursive splitter; each chunk keeps its parent
document's metadata. -/
def split_document (documents : List Document) (chunk_size chunk_overlap : Nat) :
    List Document :=
  documents.flatMap fun d =>
    (splitRec chunk_size chunk_overlap separators d.page_content).map fun t =>
      { page_content := t, metadata := d.metadata }

/- ## Normalizer (claim C3)

`preprocess_question` (src/app.py lines 80-97) runs the spaCy pipeline; the
tokenizer, punctuation/stopword predicates and lemmatizer are an external
statistical model not in this repository, so they are modelled from the
specification as an abstract analyzer (section 4.1: tokenize into linguistic
tokens, discard pure punctuation and stopwords, reduce to lemma). -/

/-- Modelled from the spec: the external spaCy analysis interface used by
`preprocess_question` — tokenization (`nlp(...)`), `token.is_punct`,
`token.is_stop` and `token.lemma_`. -/
structure Analyzer where
  tokenize : Text → List Text
  is_punct : Text → Bool
  is_stop : Text → Bool
  lemma_ : Text → Text

/-- Token filter of src/app.py line 90: keep a token when it is neither
punctuation nor a stopword. -/
def keepTok (A : Analyzer) (t : Text) : Bool := !A.is_punct t && !A.is_stop t

/-- Canonical form of a surviving token (src/app.py line 91): its lemma,
lower-cased. -/
def canon (A : Analyzer) (t : Text) : Text := pyLower (A.lemma_ t)

/-- Models `preprocess_question` (src/app.py lines 80-97): strip, tokenize,
drop punctuation and stopwords, lemmatize and lowercase, join with single
spaces, capitalize the first character. -/
def preprocess_question (A : Analyzer) (question : Text) : Text :=
  pyCapitalize (joinSpaces
    (((A.tokenize (pyStrip question)).filter (keepTok A)).map (canon A)))

/-- A canonical token: non-empty, free of whitespace, already lower-case.
Used to state the stability assumptions on the analyzer. -/
def CleanWord (w : Text) : Prop :=
  w ≠ [] ∧ (∀ c ∈ w, c.isWhitespace = false) ∧ pyLower w = w

/-- A token-shaped word: non-empty and free of whitespace. -/
def TokWord (w : Text) : Prop :=
  w ≠ [] ∧ ∀ c ∈ w, c.isWhitespace = false

/-- Assumption: the analyzer produces no tokens from the empty text. -/
def TokenizeEmpty (A : Analyzer) : Prop := A.tokenize [] = []

/-- Assumption: the canonical form of every surviving token is a non-empty,
whitespace-free, lower-case word (the spec's "tokens are already
lowercased/lemmatized"). -/
def CanonClean (A : Analyzer) : Prop :=
  ∀ x t, t ∈ A.tokenize (pyStrip x) → keepTok A t = true → CleanWord (canon A t)

/-- Assumption: tokenizing a single-space join of token-shaped words yields
exactly those words back. -/
def TokenizeJoin (A : Analyzer) : Prop :=
  ∀ ws : List Text, ws ≠ [] → (∀ w ∈ ws, TokWord w) → A.tokenize (joinSpaces ws) = ws

/-- Assumption: canonical tokens are stable under re-analysis, also in the
capitalized position the final `capitalize` puts the first token in (the
spec's justification for idempotence: "post-capitalization it is stable
because tokens are already lowercased/lemmatized"). -/
def CanonStable (A : Analyzer) : Prop :=
  ∀ x t, t ∈ A.tokenize (pyStrip x) → keepTok A t = true →
    keepTok A (canon A t) = true ∧
    canon A (canon A t) = canon A t ∧
    keepTok A (pyCapitalize (canon A t)) = true ∧
    canon A (pyCapitalize (canon A t)) = canon A t

/-- A concrete analyzer satisfying the stability assumptions: whitespace
tokenization, no punctuation or stopword classes, lower-casing lemmatizer. -/
def wsTokenize : Text → List Text
  | [] => []
  | c :: cs =>
    if c.isWhitespace then wsTokenize cs
    else (c :: cs.takeWhile (fun d => !d.isWhitespace)) ::
      wsTokenize (cs.dropWhile (fun d => !d.isWhitespace))
termination_by l => l.length
decreasing_by
  · simp only [List.length_cons]; omega
  · have := (List.dropWhile_sublist (l := cs) (fun d => !d.isWhitespace)).length_le
    simp only [List.length_cons]; omega

/-- The concrete analyzer used to witness the idempotence theorem. -/
def plainAnalyzer : Analyzer :=
  { tokenize := wsTokenize
    is_punct := fun _ => false
    is_stop := fun _ => false
    lemma_ := pyLower }

/- ## Deduplicator and vector-store ids (claims C2, C4)

`create_vectorstore` (src/app.py lines 102-135) computes
`ids = [str(uuid.uuid5(uuid.NAMESPACE_DNS, doc.page_content)) for doc in chunks]`,
keeps only the first chunk for each id, and then calls
`FAISS.from_documents(documents=unique_chunks, ids=list(unique_ids))`.
The digest `str(uuid.uuid5(NAMESPACE_DNS, ·))` is a pure function of the text
(SHA-1 based, external to this repository) and is modelled as an abstract
function parameter `digest`. -/

/-- Models the deduplication loop of src/app.py lines 119-126: `seen` is the
set of already-seen ids (represented by its membership list); a chunk is kept
only when its digest has not been seen. -/
def uniqAux (digest : Text → Text) (seen : List Text) : List Document → List Document
  | [] => []
  | c :: rest =>
    if digest c.page_content ∈ seen then uniqAux digest seen rest
    else c :: uniqAux digest (digest c.page_content :: seen) rest

/-- The `unique_chunks` list built by src/app.py lines 122-126. -/
def unique_chunks (digest : Text → Text) (chunks : List Document) : List Document :=
  uniqAux digest [] chunks

/-- The contents of the `unique_ids` set of src/app.py lines 119-125, listed
in insertion order: exactly the digests of the kept chunks. -/
def unique_ids (digest : Text → Text) (chunks : List Document) : List Text :=
  (unique_chunks digest chunks).map fun c => digest c.page_content

/-- Follows the spec's words (section 4.3), for comparison with the code's
loop: keep a chunk the first time its digest is seen and drop every later
chunk with the same digest, regardless of its metadata. -/
def dedupeSpec (digest : Text → Text) : List Document → List Document
  | [] => []
  | c :: rest =>
    c :: dedupeSpec digest
      (rest.filter fun d => digest d.page_content != digest c.page_content)
termination_by l => l.length
decreasing_by
  have := List.length_filter_le
    (fun d => digest d.page_content != digest c.page_content) rest
  simp only [List.length_cons]; omega

/-- Models the id/chunk association made by
`FAISS.from_documents(documents=unique_chunks, ids=list(unique_ids))`
(src/app.py lines 130-132): the i-th id is attached to the i-th document.
`setOrder` is the enumeration order produced by Python's `list(unique_ids)`;
since `unique_ids` is a `set`, that order is an arbitrary (hash-dependent)
permutation of the set's contents, so it is passed as a parameter. -/
def create_vectorstore_pairs (digest : Text → Text) (chunks : List Document)
    (setOrder : List Text) : List (Document × Text) :=
  (unique_chunks digest chunks).zip setOrder

/- ## Router (claim C5) -/

/-- The two dispatch targets of the question handler. -/
inductive Route where
  | Summarize
  | Answer
deriving DecidableEq

/-- The keyword list of src/app.py line 421. -/
def routeKeywords : List Text := ["summarize".data, "summary".data]

/-- Models the routing test of src/app.py lines 421-433:
`any(keyword in user_question.lower() for keyword in ["summarize", "summary"])`
dispatches to the summarize path, otherwise to the QA path. -/
def route (user_question : Text) : Route :=
  if routeKeywords.any (fun kw => pyIn kw (pyLower user_question)) then
    Route.Summarize
  else
    Route.Answer

/- ## Prompt assembly (claims C6, C7, C10) -/

/-- The literal `PROMPT_TEMPLATE` of src/app.py lines 226-235. -/
def PROMPT_TEMPLATE : Text :=
  "\nIf you don't know the answer, say that you\ndon't know. DON'T MAKE UP ANYTHING.\n\n\x7bcontext\x7d\n\n---\n\nAnswer the question based on the above context: \x7bquestion\x7d\n".data

/-- Models `str.format`/`PromptTemplate` substitution for the two fields of
`PROMPT_TEMPLATE`: the template is scanned once; each occurrence of the
`context` or `question` placeholder is replaced by the corresponding value,
and replacement values are never re-scanned. -/
def pyFormat (context question : Text) : Text → Text
  | [] => []
  | c :: cs =>
    if List.isPrefixOf "\x7bcontext\x7d".data (c :: cs) then
      context ++ pyFormat context question (cs.drop ("\x7bcontext\x7d".data.length - 1))
    else if List.isPrefixOf "\x7bquestion\x7d".data (c :: cs) then
      question ++ pyFormat context question (cs.drop ("\x7bquestion\x7d".data.length - 1))
    else
      c :: pyFormat context question cs
termination_by l => l.length
decreasing_by
  · simp only [List.length_drop, List.length_cons]; omega
  · simp only [List.length_drop, List.length_cons]; omega
  · simp only [List.length_cons]; omega

/-- Python's rendering of a langchain `Document` (pydantic v1 repr, as the
pinned old-style langchain import produces): field name/value pairs inside a
`Document(...)` wrapper.  The exact quoting of the metadata blob is
immaterial to the claims; what matters is that the rendering is not the bare
chunk text. -/
def reprDocument (d : Document) : Text :=
  "Document(page_content='".data ++ d.page_content ++ "', metadata=".data ++
    d.metadata ++ ")".data

/-- Python's `str` of a list: `[` + comma-separated element reprs + `]`.
This is what `.format(context=relevant_chunks, ...)` interpolates, since
`relevant_chunks` is the list object itself. -/
def pyStrList (l : List Document) : Text :=
  "[".data ++ List.intercalate ", ".data (l.map reprDocument) ++ "]".data

/-- The context section the claim describes: the bare concatenation of the
retrieved chunks' text, in order (stated from the spec's words, for
comparison with what the code actually interpolates). -/
def concatTexts (l : List Document) : Text :=
  (l.map Document.page_content).flatten

/-- Models the prompt construction shared by `summary_function`
(src/app.py lines 289-290) and `query_document` (lines 330-331):
`prompt_template.format(context=relevant_chunks, question=topic)`. -/
def assemblePrompt (relevant_chunks : List Document) (topic : Text) : Text :=
  pyFormat (pyStrList relevant_chunks) topic PROMPT_TEMPLATE

/-- Models `generate_summary_messages` (src/app.py lines 237-251) as
(role, content) pairs, with the system message's exact literal. -/
def generate_summary_messages (content : Text) : List (Text × Text) :=
  [("system".data,
    "You are an assistant for summarizing text. \n                        Summarize the section given but maintain the key points.\n                        The summary first explaining the section then in the end give a summary overall.\n                        ".data),
   ("user".data, content)]

/-- Models `generate_query_messages` (src/app.py lines 253-267) as
(role, content) pairs, with the system message's exact literal. -/
def generate_query_messages (content : Text) : List (Text × Text) :=
  [("system".data,
    "You are an assistant for question-answering tasks.\n                        Use the following pieces of retrieved context to answer\n                        the question. \n                        ".data),
   ("user".data, content)]

/-- Models `summary_function` (src/app.py lines 269-306) up to the external
LLM call: normalize the question, retrieve with the normalized question,
assemble the prompt, and wrap it in the summary messages payload.  The
retriever (`vectorstore.as_retriever(...).invoke`) is an external
collaborator passed as a function. -/
def summary_function_messages (A : Analyzer) (retriever : Text → List Document)
    (question : Text) : List (Text × Text) :=
  generate_summary_messages
    (assemblePrompt (retriever (preprocess_question A question))
      (preprocess_question A question))

/-- Models `query_document` (src/app.py lines 314-333) up to the external
LLM call, analogously to `summary_function_messages`. -/
def query_document_messages (A : Analyzer) (retriever : Text → List Document)
    (query : Text) : List (Text × Text) :=
  generate_query_messages
    (assemblePrompt (retriever (preprocess_question A query))
      (preprocess_question A query))

/-- The fixed template text before the context placeholder. -/
def tplHead : Text :=
  "\nIf you don't know the answer, say that you\ndon't know. DON'T MAKE UP ANYTHING.\n\n".data

/-- The fixed template text between the context and question placeholders. -/
def tplMid : Text :=
  "\n\n---\n\nAnswer the question based on the above context: ".data

/-- The fixed template text after the question placeholder. -/
def tplTail : Text := "\n".data

/-- The literal no-fabrication instruction contained in the template. -/
def noFabricationText : Text :=
  "If you don't know the answer, say that you\ndon't know. DON'T MAKE UP ANYTHING.".data

/- ## Startup credential checks (claim C8) -/

/-- Models Python truthiness of `os.getenv(...)`: falsy when the variable is
absent or set to the empty string. -/
def pyFalsy : Option Text → Bool
  | none => true
  | some s => s.isEmpty

/-- The message of src/app.py line 33. -/
def groqMissingMsg : Text :=
  "GroqCloud API key not found. Please set GROQCLOUD_API_KEY in your .env file.".data

/-- The error the groq SDK client constructor raises when no api key is
available. -/
def groqKeyRequiredMsg : Text :=
  "The api_key client option must be set either by passing api_key to the client or by setting the GROQ_API_KEY environment variable".data

/-- Models the groq SDK constructor `Groq()` called at src/app.py line 29
(external collaborator, not in src/): with no explicit `api_key` argument it
reads `GROQ_API_KEY` from the environment and raises `GroqError` when the
variable is absent; an empty-string value is accepted by the constructor.
The returned client handle is modelled as the key it read. -/
def groqClient (env : Text → Option Text) : Except Text Text :=
  match env "GROQ_API_KEY".data with
  | none => Except.error groqKeyRequiredMsg
  | some s => Except.ok s

/-- Models the startup sequence of src/app.py lines 26-33: read both keys
from the environment, construct the Groq client (line 29, which raises —
`Except.error` — when the generation key is absent), then report via
`st.error` when the GroqCloud key value is falsy.  On the non-raising path
the result carries the two values read and the list of reported messages. -/
def startup (env : Text → Option Text) :
    Except Text (Option Text × Option Text × List Text) :=
  let google_api_key := env "GOOGLE_API_KEY".data
  let groqcloud_api_key := env "GROQ_API_KEY".data
  match groqClient env with
  | Except.error e => Except.error e
  | Except.ok _ =>
    Except.ok (google_api_key, groqcloud_api_key,
      if pyFalsy groqcloud_api_key then [groqMissingMsg] else [])

/-- A concrete environment with the embedding-service credential absent and
the generation-service credential present. -/
def envGoogleMissing : Text → Option Text :=
  fun k => if k = "GROQ_API_KEY".data then some "gsk-test-key".data else none

/-- A concrete environment with the generation-service credential absent and
the embedding-service credential present. -/
def envGroqMissing : Text → Option Text :=
  fun k => if k = "GOOGLE_API_KEY".data then some "google-test-key".data else none

/- ## Chat history (claim C9) -/

/-- A recorded (question, answer) pair. -/
structure ChatTurn where
  question : Text
  answer : Text
deriving DecidableEq

/-- Models the chat-history update of src/app.py lines 436-441: the selected
model's list (empty when the model has no entry yet) gets the new turn
appended; every other model's list is untouched.  The history dictionary is
modelled as a total function from model name to turn list, missing keys
mapping to `[]`. -/
def recordTurn (hist : Text → List ChatTurn) (model question answer : Text) :
    Text → List ChatTurn :=
  fun m =>
    if m = model then hist model ++ [{ question := question, answer := answer }]
    else hist m

/-- Folds a whole session of interactions over the history, one `recordTurn`
per answered question (the only operation the process ever applies to the
history). -/
def runSession (hist : Text → List ChatTurn) :
    List (Text × Text × Text) → (Text → List ChatTurn)
  | [] => hist
  | e :: rest => runSession (recordTurn hist e.1 e.2.1 e.2.2) rest

/-- Concrete documents used to instantiate the chunker theorem. -/
def c1Docs : List Document := [{ page_content := "aaaa bb".data, metadata := "m".data }]

/-- A concrete digest function standing in for
`str(uuid.uuid5(uuid.NAMESPACE_DNS, ·))` in the concrete id-pairing
evaluation (any function exhibits the pairing behaviour; uuid5 is injective
on the two texts used, as the identity is). -/
def idDigest : Text → Text := fun t => t

/-- Two chunks with distinct texts (and distinct metadata), used to evaluate
the id pairing handed to the vector index. -/
def c2Chunks : List Document :=
  [{ page_content := "a".data, metadata := "m1".data },
   { page_content := "b".data, metadata := "m2".data }]

/-- A concrete one-chunk retrieval result used to evaluate the context
interpolation. -/
def c6Chunks : List Document :=
  [{ page_content := "refund policy text".data, metadata := "\x7b'page': 0\x7d".data }]

/-!
## Theorems

Helper lemmas first, then one theorem per claim (with witnesses and
counterexamples as required).
-/

theorem charWindows_length_le (cs co : Nat) (hs : 0 < cs) :
    ∀ (n : Nat) (l : Text), l.length ≤ n →
      ∀ p ∈ charWindows cs co l, p.length ≤ cs := by
  intro n
  induction n with
  | zero =>
    intro l hl p hp
    rw [charWindows, dif_pos (show l.length ≤ cs by omega)] at hp
    simp only [List.mem_singleton] at hp
    subst hp; omega
  | succ n ih =>
    intro l hl p hp
    rw [charWindows] at hp
    split at hp
    · simp only [List.mem_singleton] at hp
      subst hp; omega
    · rcases List.mem_cons.mp hp with rfl | hp'
      · simp only [List.length_take]; omega
      · refine ih _ ?_ p hp'
        simp only [List.length_drop]
        omega

theorem splitRec_length_le (cs co : Nat) (hs : 0 < cs) :
    ∀ (seps : List Text) (text : Text), ∀ p ∈ splitRec cs co seps text,
      p.length ≤ cs := by
  intro seps
  induction seps with
  | nil =>
    intro text p hp
    simp only [splitRec] at hp
    split at hp
    · simp only [List.mem_singleton] at hp; subst hp; omega
    · exact charWindows_length_le cs co hs text.length text le_rfl p hp
  | cons sep rest ih =>
    intro text p hp
    simp only [splitRec] at hp
    split at hp
    · simp only [List.mem_singleton] at hp; subst hp; omega
    · obtain ⟨piece, _, hpiece⟩ := List.mem_flatMap.mp hp
      exact ih piece p hpiece

theorem splitOnSeqGo_of_not_mem (s0 : Char) (srest : Text) :
    ∀ (l acc : Text), s0 ∉ l → splitOnSeqGo s0 srest acc l = [acc.reverse ++ l] := by
  intro l
  induction l with
  | nil => intro acc _; simp [splitOnSeqGo]
  | cons c cs ih =>
    intro acc h
    have hc : (s0 == c) = false := by
      simp only [beq_eq_false_iff_ne, ne_eq]
      intro e; exact h (by simp [e])
    rw [splitOnSeqGo, if_neg (by simp [List.isPrefixOf, hc])]
    rw [ih (c :: acc) (fun hm => h (List.mem_cons_of_mem _ hm))]
    simp

theorem splitOnSeq_of_not_mem (s0 : Char) (srest l : Text) (h : s0 ∉ l) :
    splitOnSeq (s0 :: srest) l = [l] := by
  simp only [splitOnSeq]
  rw [splitOnSeqGo_of_not_mem s0 srest l [] h]
  simp

theorem splitRec_no_sep (cs co : Nat) (text : Text) (h1 : '\n' ∉ text)
    (h2 : ' ' ∉ text) (h3 : cs < text.length) :
    splitRec cs co separators text = charWindows cs co text := by
  simp only [separators, splitRec, if_neg (by omega : ¬(text.length ≤ cs))]
  rw [splitOnSeq_of_not_mem _ _ _ h1]
  simp only [List.flatMap_cons, List.flatMap_nil, List.append_nil,
    if_neg (by omega : ¬(text.length ≤ cs))]
  rw [splitOnSeq_of_not_mem _ _ _ h1]
  simp only [List.flatMap_cons, List.flatMap_nil, List.append_nil,
    if_neg (by omega : ¬(text.length ≤ cs))]
  rw [splitOnSeq_of_not_mem _ _ _ h2]
  simp only [List.flatMap_cons, List.flatMap_nil, List.append_nil,
    if_neg (by omega : ¬(text.length ≤ cs))]

/-- C1: for every document sequence and every configuration with
`chunk_overlap < chunk_size`, every chunk emitted by `split_document` has
character length at most `chunk_size`; and a piece below the separator
granularity (no newline and no space, hence no double newline either) that
is still oversized is split at the raw character boundary
(`charWindows`). -/
theorem c1_chunker_bound (documents : List Document) (chunk_size chunk_overlap : Nat)
    (h : chunk_overlap < chunk_size) :
    (∀ c ∈ split_document documents chunk_size chunk_overlap,
        c.page_content.length ≤ chunk_size) ∧
    (∀ text : Text, '\n' ∉ text → ' ' ∉ text → chunk_size < text.length →
        splitRec chunk_size chunk_overlap separators text =
          charWindows chunk_size chunk_overlap text) := by
  constructor
  · intro c hc
    simp only [split_document, List.mem_flatMap, List.mem_map] at hc
    obtain ⟨d, _, p, hp, rfl⟩ := hc
    exact splitRec_length_le _ _ (by omega) _ _ _ hp
  · intro text h1 h2 h3
    exact splitRec_no_sep _ _ _ h1 h2 h3

/-- C1 witness: the chunker theorem applied to a concrete document and the
concrete valid configuration `chunk_size = 3`, `chunk_overlap = 1`. -/
theorem c1_chunker_bound_witness :
    (1 < 3) ∧
    ((∀ c ∈ split_document c1Docs 3 1, c.page_content.length ≤ 3) ∧
     (∀ text : Text, '\n' ∉ text → ' ' ∉ text → 3 < text.length →
        splitRec 3 1 separators text = charWindows 3 1 text)) :=
  ⟨by decide, c1_chunker_bound c1Docs 3 1 (by decide)⟩

theorem uniqAux_sublist (digest : Text → Text) :
    ∀ (l : List Document) (seen : List Text), (uniqAux digest seen l).Sublist l := by
  intro l
  induction l with
  | nil => intro seen; simp [uniqAux]
  | cons c rest ih =>
    intro seen
    simp only [uniqAux]
    split
    · exact (ih seen).cons c
    · exact (ih _).cons₂ c

theorem uniqAux_not_mem_seen (digest : Text → Text) :
    ∀ (l : List Document) (seen : List Text) (c : Document),
      c ∈ uniqAux digest seen l → digest c.page_content ∉ seen := by
  intro l
  induction l with
  | nil => intro seen c hc; simp [uniqAux] at hc
  | cons a rest ih =>
    intro seen c hc
    simp only [uniqAux] at hc
    split at hc
    · exact ih seen c hc
    · rcases List.mem_cons.mp hc with rfl | h
      · assumption
      · intro hmem
        exact ih _ c h (List.mem_cons_of_mem _ hmem)

theorem uniqAux_pairwise (digest : Text → Text) :
    ∀ (l : List Document) (seen : List Text),
      (uniqAux digest seen l).Pairwise
        (fun a b => digest a.page_content ≠ digest b.page_content) := by
  intro l
  induction l with
  | nil => intro seen; simp [uniqAux]
  | cons a rest ih =>
    intro seen
    simp only [uniqAux]
    split
    · exact ih seen
    · refine List.Pairwise.cons ?_ (ih _)
      intro b hb heq
      exact uniqAux_not_mem_seen digest rest _ b hb
        (heq ▸ List.mem_cons_self _ _)

theorem uniqAux_eq_dedupeSpec (digest : Text → Text) :
    ∀ (l : List Document) (seen : List Text),
      uniqAux digest seen l =
        dedupeSpec digest
          (l.filter fun c => !decide (digest c.page_content ∈ seen)) := by
  intro l
  induction l with
  | nil => intro seen; simp [uniqAux, dedupeSpec]
  | cons a rest ih =>
    intro seen
    simp only [uniqAux]
    split
    · rename_i hmem
      rw [ih seen]
      have : (List.filter (fun c => !decide (digest c.page_content ∈ seen)) (a :: rest)) =
          rest.filter fun c => !decide (digest c.page_content ∈ seen) := by
        simp [List.filter_cons, hmem]
      rw [this]
    · rename_i hmem
      have ha : (List.filter (fun c => !decide (digest c.page_content ∈ seen)) (a :: rest)) =
          a :: (rest.filter fun c => !decide (digest c.page_content ∈ seen)) := by
        simp [List.filter_cons, hmem]
      rw [ha]
      simp only [dedupeSpec]
      rw [ih (digest a.page_content :: seen)]
      have hf : (rest.filter fun c =>
            !decide (digest c.page_content ∈ digest a.page_content :: seen)) =
          ((rest.filter fun c => !decide (digest c.page_content ∈ seen)).filter
            fun d => digest d.page_content != digest a.page_content) := by
        rw [List.filter_filter]
        refine List.filter_congr ?_
        intro d _
        by_cases h1 : digest d.page_content = digest a.page_content <;>
          by_cases h2 : digest d.page_content ∈ seen <;>
            simp [h1, h2, bne]
      rw [hf]

/-- C4: deduplication keeps a chunk only the first time its content digest
is seen: the output is an order-preserving subselection of the input, no two
output chunks have identical text, the output is no longer than the input,
and the loop computes exactly the spec's first-occurrence filter (later
chunks with the same digest dropped regardless of their metadata). -/
theorem c4_dedupe (digest : Text → Text) (chunks : List Document) :
    (unique_chunks digest chunks).Sublist chunks ∧
    (unique_chunks digest chunks).Pairwise
      (fun a b => a.page_content ≠ b.page_content) ∧
    (unique_chunks digest chunks).length ≤ chunks.length ∧
    unique_chunks digest chunks = dedupeSpec digest chunks := by
  refine ⟨uniqAux_sublist digest chunks [], ?_, (uniqAux_sublist digest chunks []).length_le, ?_⟩
  · refine (uniqAux_pairwise digest chunks []).imp ?_
    intro a b hdig heq
    exact hdig (by rw [heq])
  · have h := uniqAux_eq_dedupeSpec digest chunks []
    simpa using h

/-- C2: evaluating the id/chunk association of `create_vectorstore` on two
distinct chunks shows the claim false of the code: the ids are passed as
`list(unique_ids)` where `unique_ids` is a Python set, so under a legitimate
set enumeration order (here the reverse of insertion order) some index entry
is paired with the digest of the other chunk's text, not its own. -/
theorem c2_ids_mispaired :
    (["b".data, "a".data] : List Text).Perm (unique_ids idDigest c2Chunks) ∧
    (∃ p ∈ create_vectorstore_pairs idDigest c2Chunks ["b".data, "a".data],
        p.2 ≠ idDigest p.1.page_content) := by
  constructor
  · have h : unique_ids idDigest c2Chunks = ["a".data, "b".data] := by decide
    rw [h]
    exact List.Perm.swap "a".data "b".data []
  · decide

theorem isPrefixOf_iff : ∀ (pat l : Text),
    List.isPrefixOf pat l = true ↔ ∃ v, l = pat ++ v := by
  intro pat
  induction pat with
  | nil => intro l; simp [List.isPrefixOf]
  | cons p ps ih =>
    intro l
    cases l with
    | nil => simp [List.isPrefixOf]
    | cons c cs =>
      simp only [List.isPrefixOf, Bool.and_eq_true, beq_iff_eq, ih, List.cons_append,
        List.cons.injEq]
      constructor
      · rintro ⟨rfl, v, rfl⟩; exact ⟨v, rfl, rfl⟩
      · rintro ⟨v, rfl, h⟩; exact ⟨rfl, v, h⟩

theorem pyIn_iff : ∀ (pat l : Text), pyIn pat l = true ↔ OccursIn pat l := by
  intro pat l
  induction l with
  | nil =>
    simp only [pyIn, OccursIn, List.isEmpty_iff]
    constructor
    · rintro rfl; exact ⟨[], [], rfl⟩
    · rintro ⟨u, v, huv⟩
      rcases List.append_eq_nil.mp huv.symm with ⟨hup, _⟩
      exact (List.append_eq_nil.mp hup).2
  | cons c cs ih =>
    simp only [pyIn, Bool.or_eq_true, isPrefixOf_iff, ih, OccursIn]
    constructor
    · rintro (⟨v, hv⟩ | ⟨u, v, huv⟩)
      · exact ⟨[], v, by simpa using hv⟩
      · exact ⟨c :: u, v, by simp [huv]⟩
    · rintro ⟨u, v, huv⟩
      cases u with
      | nil => exact Or.inl ⟨v, by simpa using huv⟩
      | cons x u' =>
        simp only [List.cons_append, List.cons.injEq] at huv
        exact Or.inr ⟨u', v, huv.2⟩

/-- C5: the router dispatches to the summarize path iff the lowercased
question contains the substring "summarize" or "summary", otherwise to the
QA path; the three example questions route as the spec states. -/
theorem c5_router :
    (∀ q : Text, route q = Route.Summarize ↔
      (OccursIn "summarize".data (pyLower q) ∨ OccursIn "summary".data (pyLower q))) ∧
    route "Please summarize this".data = Route.Summarize ∧
    route "What is the refund policy?".data = Route.Answer ∧
    route "give me a summary please".data = Route.Summarize := by
  refine ⟨?_, by decide, by decide, by decide⟩
  intro q
  have hb : route q = Route.Summarize ↔
      (pyIn "summarize".data (pyLower q) = true ∨ pyIn "summary".data (pyLower q) = true) := by
    by_cases h1 : pyIn "summarize".data (pyLower q) = true <;>
      by_cases h2 : pyIn "summary".data (pyLower q) = true <;>
        simp [route, routeKeywords, List.any_cons, List.any_nil, h1, h2]
  rw [hb, pyIn_iff, pyIn_iff]

theorem pyFormat_no_brace (context question : Text) :
    ∀ (l rest : Text), '\x7b' ∉ l →
      pyFormat context question (l ++ rest) = l ++ pyFormat context question rest := by
  intro l
  induction l with
  | nil => intro rest _; simp
  | cons c l' ih =>
    intro rest h
    have hc : ('\x7b' == c) = false :=
      beq_eq_false_iff_ne.mpr fun e => h (by simp [e.symm])
    rw [List.cons_append, pyFormat]
    rw [if_neg (by simp [List.isPrefixOf, hc]), if_neg (by simp [List.isPrefixOf, hc])]
    rw [ih rest fun hm => h (List.mem_cons_of_mem _ hm), List.cons_append]

theorem pyFormat_at_context (context question rest : Text) :
    pyFormat context question ("\x7bcontext\x7d".data ++ rest) =
      context ++ pyFormat context question rest := by
  have he : ("\x7bcontext\x7d".data : Text) = '\x7b' :: "context\x7d".data := rfl
  rw [he, List.cons_append, pyFormat]
  rw [if_pos (isPrefixOf_iff _ _ |>.mpr ⟨rest, by simp [he]⟩)]
  have hl : ("\x7bcontext\x7d".data.length - 1) = ("context\x7d".data : Text).length := by decide
  rw [hl, List.drop_left]

theorem pyFormat_at_question (context question rest : Text) :
    pyFormat context question ("\x7bquestion\x7d".data ++ rest) =
      question ++ pyFormat context question rest := by
  have he : ("\x7bquestion\x7d".data : Text) = '\x7b' :: "question\x7d".data := rfl
  have hnc : List.isPrefixOf "\x7bcontext\x7d".data ("\x7bquestion\x7d".data ++ rest) = false := by
    rw [Bool.eq_false_iff]
    intro hpre
    obtain ⟨v, hv⟩ := (isPrefixOf_iff _ _).mp hpre
    have : ("\x7bquestion\x7d".data ++ rest).take 4 = "\x7bcon".data := by
      rw [hv]; rfl
    rw [List.take_append_of_le_length (by decide)] at this
    exact absurd this (by decide)
  rw [he, List.cons_append, pyFormat]
  rw [← List.cons_append, ← he, if_neg (by simp [hnc])]
  rw [he, List.cons_append]
  rw [if_pos (isPrefixOf_iff _ _ |>.mpr ⟨rest, by simp [he]⟩)]
  have hl : ("\x7bquestion\x7d".data.length - 1) = ("question\x7d".data : Text).length := by
    decide
  rw [hl, List.drop_left]

theorem pyFormat_template (context question : Text) :
    pyFormat context question PROMPT_TEMPLATE =
      tplHead ++ context ++ tplMid ++ question ++ tplTail := by
  have hT : PROMPT_TEMPLATE =
      tplHead ++ ("\x7bcontext\x7d".data ++ (tplMid ++ ("\x7bquestion\x7d".data ++ tplTail))) := by
    decide
  rw [hT, pyFormat_no_brace _ _ tplHead _ (by decide), pyFormat_at_context,
    pyFormat_no_brace _ _ tplMid _ (by decide), pyFormat_at_question,
    show tplTail = tplTail ++ [] from (List.append_nil _).symm,
    pyFormat_no_brace _ _ tplTail [] (by decide)]
  simp [pyFormat]

theorem assemblePrompt_eq (chunks : List Document) (topic : Text) :
    assemblePrompt chunks topic =
      tplHead ++ pyStrList chunks ++ tplMid ++ topic ++ tplTail :=
  pyFormat_template _ _

/-- C6 counterexample: on a single retrieved chunk the context interpolated
into the template is the Python rendering of the chunk list, which differs
from the concatenation of the chunks' texts the claim describes. -/
theorem c6_concat_counterexample :
    assemblePrompt c6Chunks "Refund policy".data ≠
      pyFormat (concatTexts c6Chunks) "Refund policy".data PROMPT_TEMPLATE := by
  rw [assemblePrompt_eq, pyFormat_template]
  decide

/-- C6 (amended): the context section of the assembled prompt is the Python
string rendering of the retrieved chunk list — the chunks in the order the
index returned them, each rendered with its metadata around its text — and
that rendering, not the bare concatenation of chunk texts, is substituted
together with the question into the fixed template. -/
theorem c6_context_is_list_render (chunks : List Document) (topic : Text) :
    assemblePrompt chunks topic =
      tplHead ++ pyStrList chunks ++ tplMid ++ topic ++ tplTail :=
  assemblePrompt_eq chunks topic

/-- C7: when the retriever returns zero chunks, prompt assembly still
proceeds (the messages payload is the fully determined value below) and the
user message sent to the generator contains the literal instruction not to
fabricate an answer. -/
theorem c7_empty_context (A : Analyzer) (retriever : Text → List Document) (q : Text)
    (h : retriever (preprocess_question A q) = []) :
    query_document_messages A retriever q =
      generate_query_messages
        (tplHead ++ "[]".data ++ tplMid ++ preprocess_question A q ++ tplTail) ∧
    OccursIn noFabricationText
      (tplHead ++ "[]".data ++ tplMid ++ preprocess_question A q ++ tplTail) := by
  constructor
  · unfold query_document_messages
    rw [h]
    rw [assemblePrompt_eq]
    rfl
  · refine ⟨['\n'], "\n\n".data ++ "[]".data ++ tplMid ++ preprocess_question A q ++ tplTail, ?_⟩
    have hh : tplHead = ['\n'] ++ noFabricationText ++ "\n\n".data := by decide
    rw [hh]
    simp

/-- C7 witness: the empty-context theorem applied to the constant-empty
retriever and a concrete question. -/
theorem c7_empty_context_witness :
    ((fun (_ : Text) => ([] : List Document))
        (preprocess_question plainAnalyzer "What is the refund policy?".data) = []) ∧
    (query_document_messages plainAnalyzer (fun _ => []) "What is the refund policy?".data =
      generate_query_messages
        (tplHead ++ "[]".data ++ tplMid ++
          preprocess_question plainAnalyzer "What is the refund policy?".data ++ tplTail) ∧
    OccursIn noFabricationText
      (tplHead ++ "[]".data ++ tplMid ++
        preprocess_question plainAnalyzer "What is the refund policy?".data ++ tplTail)) :=
  ⟨rfl, c7_empty_context plainAnalyzer (fun _ => []) "What is the refund policy?".data rfl⟩

/-- C10: in the summarize path and in the QA path alike, the retriever is
queried with the normalized question and the question slot of the prompt
receives the normalized question (the output of `preprocess_question`), not
the raw user question text. -/
theorem c10_normalized_question (A : Analyzer) (retriever : Text → List Document)
    (q : Text) :
    summary_function_messages A retriever q =
      generate_summary_messages
        (tplHead ++ pyStrList (retriever (preprocess_question A q)) ++ tplMid ++
          preprocess_question A q ++ tplTail) ∧
    query_document_messages A retriever q =
      generate_query_messages
        (tplHead ++ pyStrList (retriever (preprocess_question A q)) ++ tplMid ++
          preprocess_question A q ++ tplTail) := by
  constructor
  · unfold summary_function_messages; rw [assemblePrompt_eq]
  · unfold query_document_messages; rw [assemblePrompt_eq]

/-- C8 counterexample: both absent-credential cases refute the claim.  With
the embedding-service credential absent (and the generation key present)
startup runs to completion reporting nothing; with the generation-service
credential absent the Groq client constructor at line 29 raises, so startup
crashes before the `st.error` check and again nothing is reported. -/
theorem c8_absent_key_counterexample :
    (envGoogleMissing "GOOGLE_API_KEY".data = none ∧
      startup envGoogleMissing = Except.ok (none, some "gsk-test-key".data, [])) ∧
    (envGroqMissing "GROQ_API_KEY".data = none ∧
      startup envGroqMissing = Except.error groqKeyRequiredMsg) := by
  exact ⟨⟨by decide, rfl⟩, ⟨by decide, rfl⟩⟩

/-- C8 (amended): no absent credential is reported at startup.  The
embedding-service credential is read but never checked, so its absence is
silently tolerated; an absent generation-service credential makes the Groq
client constructor (line 29) raise, crashing startup before the check at
lines 32-33 can run; only a present-but-empty generation credential is both
survivable and reported (the `st.error` message), and the outcome never
depends on the embedding-service credential's value. -/
theorem c8_startup_behavior (env : Text → Option Text) (g : Option Text) :
    (startup env =
      match env "GROQ_API_KEY".data with
      | none => Except.error groqKeyRequiredMsg
      | some s =>
        Except.ok (env "GOOGLE_API_KEY".data, some s,
          if s.isEmpty then [groqMissingMsg] else [])) ∧
    startup (fun k => if k = "GOOGLE_API_KEY".data then g else env k) =
      (match startup env with
       | Except.error e => Except.error e
       | Except.ok (_, gq, r) => Except.ok (g, gq, r)) := by
  have hne : ¬(("GROQ_API_KEY".data : Text) = "GOOGLE_API_KEY".data) := by decide
  constructor
  · cases hg : env "GROQ_API_KEY".data with
    | none => simp [startup, groqClient, hg]
    | some s => simp [startup, groqClient, hg, pyFalsy]
  · cases hg : env "GROQ_API_KEY".data with
    | none => simp [startup, groqClient, hg, if_neg hne]
    | some s => simp [startup, groqClient, hg, if_neg hne, pyFalsy]

/-- C9: answering one question appends exactly one (question, answer) record
to the selected model's chat history, leaves every other recorded entry (for
that model and for every other model) unchanged, and across any whole
session of interactions the history only ever grows — it is never
cleared. -/
theorem c9_chat_history (hist : Text → List ChatTurn) (model question answer : Text) :
    recordTurn hist model question answer model =
      hist model ++ [{ question := question, answer := answer }] ∧
    (recordTurn hist model question answer model).length = (hist model).length + 1 ∧
    (∀ m, recordTurn hist model question answer m =
      if m = model then hist model ++ [{ question := question, answer := answer }]
      else hist m) ∧
    (∀ session m, ∃ t, runSession hist session m = hist m ++ t) := by
  refine ⟨by simp [recordTurn], by simp [recordTurn], fun m => rfl, ?_⟩
  intro session
  induction session generalizing hist with
  | nil => intro m; exact ⟨[], by simp [runSession]⟩
  | cons e rest ih =>
    intro m
    obtain ⟨t, ht⟩ := ih (recordTurn hist e.1 e.2.1 e.2.2) m
    simp only [runSession]
    rw [ht]
    by_cases hm : m = e.1
    · subst hm
      exact ⟨[{ question := e.2.1, answer := e.2.2 }] ++ t, by simp [recordTurn]⟩
    · exact ⟨t, by simp [recordTurn, hm]⟩

theorem char_toNat_ofNat {n : Nat} (h : n.isValidChar) : (Char.ofNat n).toNat = n := by
  rw [Char.ofNat, dif_pos h]; rfl

theorem toLower_eq_of {c : Char} (h : 65 ≤ c.toNat ∧ c.toNat ≤ 90) :
    Char.toLower c = Char.ofNat (c.toNat + 32) := by
  simp only [Char.toLower]
  rw [if_pos h]

theorem toLower_eq_self {c : Char} (h : ¬(65 ≤ c.toNat ∧ c.toNat ≤ 90)) :
    Char.toLower c = c := by
  simp only [Char.toLower]
  rw [if_neg h]

theorem toUpper_eq_of {c : Char} (h : 97 ≤ c.toNat ∧ c.toNat ≤ 122) :
    Char.toUpper c = Char.ofNat (c.toNat - 32) := by
  simp only [Char.toUpper]
  rw [if_pos h]

theorem toUpper_eq_self {c : Char} (h : ¬(97 ≤ c.toNat ∧ c.toNat ≤ 122)) :
    Char.toUpper c = c := by
  simp only [Char.toUpper]
  rw [if_neg h]

theorem ws_false_of_toNat {c : Char} (h32 : c.toNat ≠ 32) (h9 : c.toNat ≠ 9)
    (h13 : c.toNat ≠ 13) (h10 : c.toNat ≠ 10) : c.isWhitespace = false := by
  simp only [Char.isWhitespace, Bool.or_eq_false_iff, decide_eq_false_iff_not]
  exact ⟨⟨⟨fun e => h32 (by rw [e]; rfl), fun e => h9 (by rw [e]; rfl)⟩,
    fun e => h13 (by rw [e]; rfl)⟩, fun e => h10 (by rw [e]; rfl)⟩

theorem toLower_toLower (c : Char) : Char.toLower (Char.toLower c) = Char.toLower c := by
  by_cases h : 65 ≤ c.toNat ∧ c.toNat ≤ 90
  · rw [toLower_eq_of h]
    have ht : (Char.ofNat (c.toNat + 32)).toNat = c.toNat + 32 :=
      char_toNat_ofNat (Or.inl (by omega))
    rw [toLower_eq_self (by rw [ht]; omega)]
  · rw [toLower_eq_self h, toLower_eq_self h]

theorem toLower_toUpper_of_lower {c : Char} (h : Char.toLower c = c) :
    Char.toLower (Char.toUpper c) = c := by
  by_cases hu : 97 ≤ c.toNat ∧ c.toNat ≤ 122
  · rw [toUpper_eq_of hu]
    have ht : (Char.ofNat (c.toNat - 32)).toNat = c.toNat - 32 :=
      char_toNat_ofNat (Or.inl (by omega))
    rw [toLower_eq_of (by rw [ht]; omega), ht,
      show c.toNat - 32 + 32 = c.toNat from by omega, Char.ofNat_toNat]
  · rw [toUpper_eq_self hu]
    exact h

theorem toUpper_not_ws {c : Char} (h : c.isWhitespace = false) :
    (Char.toUpper c).isWhitespace = false := by
  by_cases hu : 97 ≤ c.toNat ∧ c.toNat ≤ 122
  · rw [toUpper_eq_of hu]
    have ht : (Char.ofNat (c.toNat - 32)).toNat = c.toNat - 32 :=
      char_toNat_ofNat (Or.inl (by omega))
    exact ws_false_of_toNat (by omega) (by omega) (by omega) (by omega)
  · rw [toUpper_eq_self hu]
    exact h

theorem toLower_not_ws {c : Char} (h : c.isWhitespace = false) :
    (Char.toLower c).isWhitespace = false := by
  by_cases hl : 65 ≤ c.toNat ∧ c.toNat ≤ 90
  · rw [toLower_eq_of hl]
    have ht : (Char.ofNat (c.toNat + 32)).toNat = c.toNat + 32 :=
      char_toNat_ofNat (Or.inl (by omega))
    exact ws_false_of_toNat (by omega) (by omega) (by omega) (by omega)
  · rw [toLower_eq_self hl]
    exact h

theorem pyLower_append (a b : Text) : pyLower (a ++ b) = pyLower a ++ pyLower b := by
  simp [pyLower]

theorem pyLower_pyLower (l : Text) : pyLower (pyLower l) = pyLower l := by
  simp only [pyLower, List.map_map]
  exact List.map_congr_left fun c _ => toLower_toLower c

theorem list_map_id_of {α : Type} (f : α → α) (l : List α) (h : ∀ a ∈ l, f a = a) :
    l.map f = l :=
  (List.map_congr_left h).trans (List.map_id l)

theorem pyLower_join_of_lower :
    ∀ ws : List Text, (∀ w ∈ ws, pyLower w = w) →
      pyLower (joinSpaces ws) = joinSpaces ws := by
  intro ws
  induction ws with
  | nil => intro _; rfl
  | cons w rest ih =>
    intro h
    cases rest with
    | nil => exact h w (by simp)
    | cons r rs =>
      show pyLower (w ++ ' ' :: joinSpaces (r :: rs)) = w ++ ' ' :: joinSpaces (r :: rs)
      rw [pyLower_append, h w (by simp)]
      congr 1
      show Char.toLower ' ' :: pyLower (joinSpaces (r :: rs)) = ' ' :: joinSpaces (r :: rs)
      rw [ih fun x hx => h x (List.mem_cons_of_mem _ hx),
        show Char.toLower ' ' = ' ' from by decide]

theorem cap_join (w0 : Text) (wrest : List Text) (h0 : pyLower w0 = w0)
    (hr : ∀ w ∈ wrest, pyLower w = w) :
    pyCapitalize (joinSpaces (w0 :: wrest)) = joinSpaces (pyCapitalize w0 :: wrest) := by
  cases w0 with
  | nil =>
    cases wrest with
    | nil => rfl
    | cons r rs =>
      show pyCapitalize (' ' :: joinSpaces (r :: rs)) = ' ' :: joinSpaces (r :: rs)
      show Char.toUpper ' ' :: pyLower (joinSpaces (r :: rs)) = ' ' :: joinSpaces (r :: rs)
      rw [pyLower_join_of_lower _ hr, show Char.toUpper ' ' = ' ' from by decide]
  | cons c0 w0' =>
    have hc0 : Char.toLower c0 = c0 := by
      have := congrArg (fun l => l.headI) h0
      simpa [pyLower] using this
    have hw0' : pyLower w0' = w0' := by
      have := congrArg List.tail h0
      simpa [pyLower] using this
    cases wrest with
    | nil => rfl
    | cons r rs =>
      show pyCapitalize ((c0 :: w0') ++ ' ' :: joinSpaces (r :: rs)) =
        (pyCapitalize (c0 :: w0')) ++ ' ' :: joinSpaces (r :: rs)
      show Char.toUpper c0 :: pyLower (w0' ++ ' ' :: joinSpaces (r :: rs)) =
        (Char.toUpper c0 :: pyLower w0') ++ ' ' :: joinSpaces (r :: rs)
      rw [pyLower_append, hw0']
      simp only [List.cons_append]
      congr 1
      show w0' ++ Char.toLower ' ' :: pyLower (joinSpaces (r :: rs)) = w0' ++ ' ' :: joinSpaces (r :: rs)
      rw [pyLower_join_of_lower _ hr, show Char.toLower ' ' = ' ' from by decide]

theorem dropWhile_eq_self_of_head {p : Char → Bool} :
    ∀ {l : Text}, (∀ c, l.head? = some c → p c = false) → l.dropWhile p = l := by
  intro l h
  cases l with
  | nil => rfl
  | cons c cs =>
    rw [List.dropWhile_cons, if_neg]
    rw [h c rfl]
    simp

theorem pyStrip_eq_self {l : Text}
    (hh : ∀ c, l.head? = some c → c.isWhitespace = false)
    (hr : ∀ c, l.reverse.head? = some c → c.isWhitespace = false) :
    pyStrip l = l := by
  unfold pyStrip
  rw [dropWhile_eq_self_of_head hh, dropWhile_eq_self_of_head hr, List.reverse_reverse]

theorem joinSpaces_head (c0 : Char) (w0' : Text) (wrest : List Text) :
    ∃ m, joinSpaces ((c0 :: w0') :: wrest) = c0 :: m := by
  cases wrest with
  | nil => exact ⟨w0', rfl⟩
  | cons r rs => exact ⟨w0' ++ ' ' :: joinSpaces (r :: rs), rfl⟩

theorem joinSpaces_rev_head :
    ∀ ws : List Text, ws ≠ [] → (∀ w ∈ ws, TokWord w) →
      ∃ c t, (joinSpaces ws).reverse = c :: t ∧ c.isWhitespace = false := by
  intro ws
  induction ws with
  | nil => intro h; exact absurd rfl h
  | cons w rest ih =>
    intro _ hTok
    cases rest with
    | nil =>
      obtain ⟨hne, hnw⟩ := hTok w (by simp)
      cases hrev : w.reverse with
      | nil => exact absurd (by simpa using congrArg List.reverse hrev) hne
      | cons c t =>
        refine ⟨c, t, hrev, hnw c ?_⟩
        have : c ∈ w.reverse := by rw [hrev]; simp
        exact List.mem_reverse.mp this
    | cons r rs =>
      obtain ⟨c, t, hct, hcw⟩ := ih (by simp) fun x hx => hTok x (List.mem_cons_of_mem _ hx)
      refine ⟨c, t ++ [' '] ++ w.reverse, ?_, hcw⟩
      show (w ++ ' ' :: joinSpaces (r :: rs)).reverse = c :: (t ++ [' '] ++ w.reverse)
      rw [List.reverse_append, List.reverse_cons, hct]
      simp

theorem pyStrip_joinSpaces (ws : List Text) (hne : ws ≠ [])
    (hTok : ∀ w ∈ ws, TokWord w) :
    pyStrip (joinSpaces ws) = joinSpaces ws := by
  obtain ⟨w, rest, rfl⟩ : ∃ w rest, ws = w :: rest := by
    cases ws with
    | nil => exact absurd rfl hne
    | cons w rest => exact ⟨w, rest, rfl⟩
  obtain ⟨hw, hnw⟩ := hTok w (by simp)
  obtain ⟨c0, w0', rfl⟩ : ∃ c0 w0', w = c0 :: w0' := by
    cases w with
    | nil => exact absurd rfl hw
    | cons c0 w0' => exact ⟨c0, w0', rfl⟩
  obtain ⟨m, hm⟩ := joinSpaces_head c0 w0' rest
  obtain ⟨c, t, hct, hcw⟩ := joinSpaces_rev_head _ (by simp) hTok
  refine pyStrip_eq_self ?_ ?_
  · intro d hd
    rw [hm] at hd
    simp only [List.head?_cons, Option.some.injEq] at hd
    subst hd
    exact hnw c0 (by simp)
  · intro d hd
    rw [hct] at hd
    simp only [List.head?_cons, Option.some.injEq] at hd
    subst hd
    exact hcw

theorem preprocess_fixed (A : Analyzer) (h0 : TokenizeEmpty A) (h2 : TokenizeJoin A)
    (ws : List Text)
    (hclean : ∀ w ∈ ws, CleanWord w)
    (hstab : ∀ w ∈ ws, keepTok A w = true ∧ canon A w = w ∧
      keepTok A (pyCapitalize w) = true ∧ canon A (pyCapitalize w) = w) :
    preprocess_question A (pyCapitalize (joinSpaces ws)) = pyCapitalize (joinSpaces ws) := by
  cases ws with
  | nil =>
    show preprocess_question A [] = []
    unfold preprocess_question
    rw [show pyStrip [] = [] from rfl, h0]
    rfl
  | cons w0 wrest =>
    obtain ⟨hne0, hnw0, hlow0⟩ := hclean w0 (by simp)
    have hlowr : ∀ w ∈ wrest, pyLower w = w :=
      fun w hw => (hclean w (List.mem_cons_of_mem _ hw)).2.2
    have hB : pyCapitalize (joinSpaces (w0 :: wrest)) =
        joinSpaces (pyCapitalize w0 :: wrest) := cap_join w0 wrest hlow0 hlowr
    rw [hB]
    have hTokCap : TokWord (pyCapitalize w0) := by
      obtain ⟨c0, w0', rfl⟩ : ∃ c0 w0', w0 = c0 :: w0' := by
        cases w0 with
        | nil => exact absurd rfl hne0
        | cons c0 w0' => exact ⟨c0, w0', rfl⟩
      refine ⟨by simp [pyCapitalize], ?_⟩
      intro c hc
      rcases List.mem_cons.mp hc with rfl | hc'
      · exact toUpper_not_ws (hnw0 c0 (by simp))
      · obtain ⟨d, hd, rfl⟩ := List.mem_map.mp hc'
        exact toLower_not_ws (hnw0 d (List.mem_cons_of_mem _ hd))
    have hTokAll : ∀ w ∈ (pyCapitalize w0 :: wrest), TokWord w := by
      intro w hw
      rcases List.mem_cons.mp hw with rfl | hw'
      · exact hTokCap
      · obtain ⟨hne, hnw, _⟩ := hclean w (List.mem_cons_of_mem _ hw')
        exact ⟨hne, hnw⟩
    have hC : pyStrip (joinSpaces (pyCapitalize w0 :: wrest)) =
        joinSpaces (pyCapitalize w0 :: wrest) :=
      pyStrip_joinSpaces _ (by simp) hTokAll
    have hD : A.tokenize (pyStrip (joinSpaces (pyCapitalize w0 :: wrest))) =
        pyCapitalize w0 :: wrest := by
      rw [hC]
      exact h2 _ (by simp) hTokAll
    unfold preprocess_question
    rw [hD]
    have hE : (pyCapitalize w0 :: wrest).filter (keepTok A) = pyCapitalize w0 :: wrest := by
      rw [List.filter_eq_self]
      intro w hw
      rcases List.mem_cons.mp hw with rfl | hw'
      · exact (hstab w0 (by simp)).2.2.1
      · exact (hstab w (List.mem_cons_of_mem _ hw')).1
    rw [hE]
    have hF : (pyCapitalize w0 :: wrest).map (canon A) = w0 :: wrest := by
      simp only [List.map_cons]
      congr 1
      · exact (hstab w0 (by simp)).2.2.2
      · exact list_map_id_of _ _ fun w hw => (hstab w (List.mem_cons_of_mem _ hw)).2.1
    rw [hF]
    exact hB

/-- C3: the normalizer is idempotent — for every text `x`,
`preprocess_question A (preprocess_question A x) = preprocess_question A x` —
for every analyzer satisfying the stability assumptions the spec invokes
("post-capitalization it is stable because tokens are already
lowercased/lemmatized"): the canonical tokens are clean lower-case words,
tokenization inverts the single-space join, and canonical tokens (plain or
in capitalized position) survive the filter and re-canonicalize to
themselves. -/
theorem c3_preprocess_idempotent (A : Analyzer) (h0 : TokenizeEmpty A)
    (h1 : CanonClean A) (h2 : TokenizeJoin A) (h3 : CanonStable A) (x : Text) :
    preprocess_question A (preprocess_question A x) = preprocess_question A x := by
  have hws : preprocess_question A x =
      pyCapitalize (joinSpaces
        (((A.tokenize (pyStrip x)).filter (keepTok A)).map (canon A))) := rfl
  set ws := ((A.tokenize (pyStrip x)).filter (keepTok A)).map (canon A) with hwsdef
  have hclean : ∀ w ∈ ws, CleanWord w := by
    intro w hw
    rw [hwsdef] at hw
    obtain ⟨t, ht, rfl⟩ := List.mem_map.mp hw
    obtain ⟨htok, hkeep⟩ := List.mem_filter.mp ht
    exact h1 x t htok hkeep
  have hstab : ∀ w ∈ ws, keepTok A w = true ∧ canon A w = w ∧
      keepTok A (pyCapitalize w) = true ∧ canon A (pyCapitalize w) = w := by
    intro w hw
    rw [hwsdef] at hw
    obtain ⟨t, ht, rfl⟩ := List.mem_map.mp hw
    obtain ⟨htok, hkeep⟩ := List.mem_filter.mp ht
    exact h3 x t htok hkeep
  rw [hws]
  exact preprocess_fixed A h0 h2 ws hclean hstab

theorem takeWhile_app {p : Char → Bool} :
    ∀ (xs : Text) (y : Char) (l : Text), (∀ x ∈ xs, p x = true) → p y = false →
      ((xs ++ y :: l).takeWhile p) = xs := by
  intro xs
  induction xs with
  | nil =>
    intro y l _ hy
    simp [List.takeWhile_cons, hy]
  | cons a as ih =>
    intro y l h hy
    rw [List.cons_append, List.takeWhile_cons, if_pos (h a (by simp))]
    rw [ih y l (fun x hx => h x (List.mem_cons_of_mem _ hx)) hy]

theorem dropWhile_app {p : Char → Bool} :
    ∀ (xs : Text) (y : Char) (l : Text), (∀ x ∈ xs, p x = true) → p y = false →
      ((xs ++ y :: l).dropWhile p) = y :: l := by
  intro xs
  induction xs with
  | nil =>
    intro y l _ hy
    simp [List.dropWhile_cons, hy]
  | cons a as ih =>
    intro y l h hy
    rw [List.cons_append, List.dropWhile_cons, if_pos (h a (by simp))]
    exact ih y l (fun x hx => h x (List.mem_cons_of_mem _ hx)) hy

theorem takeWhile_all {p : Char → Bool} :
    ∀ (l : Text), (∀ x ∈ l, p x = true) → l.takeWhile p = l := by
  intro l
  induction l with
  | nil => intro _; rfl
  | cons a as ih =>
    intro h
    rw [List.takeWhile_cons, if_pos (h a (by simp))]
    rw [ih fun x hx => h x (List.mem_cons_of_mem _ hx)]

theorem wsTokenize_tokens : ∀ (l : Text), ∀ t ∈ wsTokenize l, TokWord t := by
  intro l
  induction l using wsTokenize.induct with
  | case1 => intro t ht; simp [wsTokenize] at ht
  | case2 c cs hws ih =>
    intro t ht
    rw [wsTokenize, if_pos hws] at ht
    exact ih t ht
  | case3 c cs hws ih =>
    intro t ht
    rw [wsTokenize, if_neg hws] at ht
    rcases List.mem_cons.mp ht with rfl | ht'
    · refine ⟨by simp, ?_⟩
      intro d hd
      rcases List.mem_cons.mp hd with rfl | hd'
      · exact Bool.not_eq_true _ ▸ (by simpa using hws)
      · have := List.mem_takeWhile_imp hd'
        simpa using this
    · exact ih t ht'

theorem wsTokenize_join :
    ∀ ws : List Text, ws ≠ [] → (∀ w ∈ ws, TokWord w) →
      wsTokenize (joinSpaces ws) = ws := by
  intro ws
  induction ws with
  | nil => intro h; exact absurd rfl h
  | cons w rest ih =>
    intro _ hTok
    obtain ⟨hne, hnw⟩ := hTok w (by simp)
    obtain ⟨c, w', rfl⟩ : ∃ c w', w = c :: w' := by
      cases w with
      | nil => exact absurd rfl hne
      | cons c w' => exact ⟨c, w', rfl⟩
    have hc : c.isWhitespace = false := hnw c (by simp)
    have hw' : ∀ x ∈ w', (!x.isWhitespace) = true := by
      intro x hx
      rw [hnw x (List.mem_cons_of_mem _ hx)]
      rfl
    cases rest with
    | nil =>
      show wsTokenize (c :: w') = [c :: w']
      rw [wsTokenize, if_neg (by rw [hc]; simp)]
      rw [takeWhile_all w' hw', List.dropWhile_eq_nil_iff.mpr hw']
      rw [wsTokenize]
    | cons r rs =>
      show wsTokenize ((c :: w') ++ ' ' :: joinSpaces (r :: rs)) = (c :: w') :: r :: rs
      rw [List.cons_append, wsTokenize, if_neg (by rw [hc]; simp)]
      rw [takeWhile_app w' ' ' (joinSpaces (r :: rs)) hw' (by decide)]
      rw [dropWhile_app w' ' ' (joinSpaces (r :: rs)) hw' (by decide)]
      rw [wsTokenize, if_pos (by decide)]
      rw [ih (by simp) fun x hx => hTok x (List.mem_cons_of_mem _ hx)]

theorem plain_tokenize_empty : TokenizeEmpty plainAnalyzer := by
  show wsTokenize [] = []
  rw [wsTokenize]

theorem plain_canon_clean : CanonClean plainAnalyzer := by
  intro x t ht _
  obtain ⟨hne, hnw⟩ := wsTokenize_tokens _ t ht
  show CleanWord (pyLower (pyLower t))
  refine ⟨?_, ?_, ?_⟩
  · intro h
    apply hne
    simpa [pyLower] using h
  · intro d hd
    simp only [pyLower, List.map_map, List.mem_map] at hd
    obtain ⟨e, he, rfl⟩ := hd
    exact toLower_not_ws (toLower_not_ws (hnw e he))
  · exact pyLower_pyLower (pyLower t)

theorem plain_tokenize_join : TokenizeJoin plainAnalyzer := by
  intro ws hne hTok
  exact wsTokenize_join ws hne hTok

theorem lower_cap_of_lower {w : Text} (h : pyLower w = w) :
    pyLower (pyLower (pyCapitalize w)) = w := by
  cases w with
  | nil => rfl
  | cons c cs =>
    have hc : Char.toLower c = c := by
      have := congrArg (fun l => l.headI) h
      simpa [pyLower] using this
    have hcs : pyLower cs = cs := by
      have := congrArg List.tail h
      simpa [pyLower] using this
    show pyLower (pyLower (Char.toUpper c :: pyLower cs)) = c :: cs
    simp only [pyLower, List.map_cons, List.map_map]
    refine congrArg₂ List.cons ?_ ?_
    · show Char.toLower (Char.toLower (Char.toUpper c)) = c
      rw [toLower_toUpper_of_lower hc, hc]
    · show cs.map ((Char.toLower ∘ Char.toLower) ∘ Char.toLower) = cs
      have h3 : ∀ d ∈ cs, ((Char.toLower ∘ Char.toLower) ∘ Char.toLower) d = Char.toLower d := by
        intro d _
        simp only [Function.comp_apply, toLower_toLower]
      rw [List.map_congr_left h3]
      exact hcs

theorem plain_canon_stable : CanonStable plainAnalyzer := by
  intro x t ht hk
  refine ⟨rfl, ?_, rfl, ?_⟩
  · show pyLower (pyLower (pyLower (pyLower t))) = pyLower (pyLower t)
    rw [pyLower_pyLower, pyLower_pyLower]
  · show pyLower (pyLower (pyCapitalize (pyLower (pyLower t)))) = pyLower (pyLower t)
    exact lower_cap_of_lower (pyLower_pyLower (pyLower t))

/-- C3 witness: a concrete analyzer (whitespace tokenizer, empty
punctuation/stopword classes, lower-casing lemmatizer) satisfies every
stability assumption, and the idempotence theorem applies to it at a
concrete question. -/
theorem c3_preprocess_idempotent_witness :
    TokenizeEmpty plainAnalyzer ∧ CanonClean plainAnalyzer ∧
    TokenizeJoin plainAnalyzer ∧ CanonStable plainAnalyzer ∧
    preprocess_question plainAnalyzer
        (preprocess_question plainAnalyzer "  What is the refund policy?  ".data) =
      preprocess_question plainAnalyzer "  What is the refund policy?  ".data :=
  ⟨plain_tokenize_empty, plain_canon_clean, plain_tokenize_join, plain_canon_stable,
    c3_preprocess_idempotent plainAnalyzer plain_tokenize_empty plain_canon_clean
      plain_tokenize_join plain_canon_stable "  What is the refund policy?  ".data⟩
